import Mathlib

/-!
Verification of the action-control policy engine.

A shallow embedding of the policy evaluation and merge engine of the
`action-control` repository (package `internal/policy`, `internal/export`),
together with proofs of the specified properties.

Conventions of the embedding:
* Go strings are Lean `String`s; Go slices are Lean `List`s.
* The Go map `map[string]Policy` is modelled as an association list
  `List (String × Policy)` with `lookupRule` for map indexing and
  `insertRule` for map assignment (update the binding in place, or append
  a fresh binding).  Go map iteration order is unspecified; every result
  proved here is either keyed (map lookup) or sorted, so the list order
  chosen by the model is immaterial.
* YAML (de)serialization and filesystem reads/writes performed by the
  external `gopkg.in/yaml.v3` and `os` libraries are outside the
  repository; where a claim spans them (the export round trip) the
  round trip of the document is modelled as the identity, composed with
  the pure post-processing that `LoadPolicyConfig` applies after parsing.
-/

namespace ActionControl

/-- `Policy` (policy.go): repository-specific policy fragment. -/
structure Policy where
  allowedActions : List String := []
  deniedActions : List String := []
  policyMode : String := ""
  deriving DecidableEq

/-- `PolicyConfig` (policy.go): document-level policy configuration. -/
structure PolicyConfig where
  allowedActions : List String := []
  deniedActions : List String := []
  excludedRepos : List String := []
  customRules : List (String × Policy) := []
  policyMode : String := ""
  deriving DecidableEq

/-- Go map indexing `policy.CustomRules[repoName]`. -/
def lookupRule : List (String × Policy) → String → Option Policy
  | [], _ => none
  | (k, v) :: rest, key => if k = key then some v else lookupRule rest key

/-- Go map assignment `m[key] = val`: replace the binding in place, or append. -/
def insertRule : List (String × Policy) → String → Policy → List (String × Policy)
  | [], key, val => [(key, val)]
  | (k, v) :: rest, key, val =>
      if k = key then (key, val) :: rest else (k, v) :: insertRule rest key val

/-- `normalizeAction` (policy.go): returns the prefix of the action string up to
(excluding) the first `@`, i.e. strips the version suffix. -/
def normalizeAction (action : String) : String :=
  ⟨action.data.takeWhile (fun c => c ≠ '@')⟩

/-- `contains` (policy.go): linear scan for an exact string match. -/
def contains : List String → String → Bool
  | [], _ => false
  | s :: rest, item => if s = item then true else contains rest item

/-- The mode-inference block that appears verbatim both in `LoadPolicyConfig`
and in `CheckActionCompliance` (policy.go): allow if the allowed list is
non-empty, else deny if the denied list is non-empty, else allow. -/
def defaultPolicyMode (allowedActions deniedActions : List String) : String :=
  if allowedActions.length > 0 then "allow"
  else if deniedActions.length > 0 then "deny"
  else "allow"

/-- The pure post-processing step of `LoadPolicyConfig` (policy.go), applied to
the configuration after YAML parsing: set the default policy mode if the
document did not specify one. -/
def applyDefaultMode (config : PolicyConfig) : PolicyConfig :=
  if config.policyMode = "" then
    { config with policyMode := defaultPolicyMode config.allowedActions config.deniedActions }
  else config

/-- `determineRepoMode` (policy.go). -/
def determineRepoMode (policy : Policy) (defaultMode : String) : String :=
  if policy.policyMode ≠ "" then policy.policyMode
  else if policy.allowedActions.length > 0 then "allow"
  else if policy.deniedActions.length > 0 then "deny"
  else defaultMode

/-- `MergeRepoPolicy` (policy.go), on the already-parsed override document
`repoPolicy` (YAML parsing of the raw bytes is external to the engine; a parse
failure returns early with an error and produces no merged policy). -/
def MergeRepoPolicy (globalPolicy : PolicyConfig) (repoPolicy : PolicyConfig)
    (repoName : String) : PolicyConfig :=
  let mergedPolicy : PolicyConfig :=
    { allowedActions := globalPolicy.allowedActions
      deniedActions := globalPolicy.deniedActions
      excludedRepos := globalPolicy.excludedRepos
      customRules := globalPolicy.customRules
      policyMode := globalPolicy.policyMode }
  match lookupRule repoPolicy.customRules repoName with
  | some customRule =>
      { mergedPolicy with customRules := insertRule mergedPolicy.customRules repoName customRule }
  | none =>
      if repoPolicy.allowedActions.length > 0 ∨ repoPolicy.deniedActions.length > 0 then
        let policy0 : Policy :=
          { allowedActions := repoPolicy.allowedActions
            deniedActions := repoPolicy.deniedActions
            policyMode := "" }
        let policy : Policy :=
          if repoPolicy.policyMode ≠ "" then
            { policy0 with policyMode := repoPolicy.policyMode }
          else
            { policy0 with policyMode := determineRepoMode policy0 globalPolicy.policyMode }
        { mergedPolicy with customRules := insertRule mergedPolicy.customRules repoName policy }
      else
        mergedPolicy

/-- The rule-set resolution step of `CheckActionCompliance` (policy.go):
choose the custom rule for the repository if one exists (inheriting the global
mode when the custom mode is unset, and the global list for the active mode
when the custom list for that mode is empty), otherwise the global rule set.
Returns `(allowedActions, deniedActions, policyMode)`. -/
def resolveEffectiveRaw (policy : PolicyConfig) (repoName : String) :
    List String × List String × String :=
  match lookupRule policy.customRules repoName with
  | some customPolicy =>
      let allowedActions := customPolicy.allowedActions
      let deniedActions := customPolicy.deniedActions
      let policyMode :=
        if customPolicy.policyMode = "" then policy.policyMode else customPolicy.policyMode
      if policyMode = "allow" ∧ allowedActions.length = 0 then
        (policy.allowedActions, deniedActions, policyMode)
      else if policyMode = "deny" ∧ deniedActions.length = 0 then
        (allowedActions, policy.deniedActions, policyMode)
      else
        (allowedActions, deniedActions, policyMode)
  | none => (policy.allowedActions, policy.deniedActions, policy.policyMode)

/-- The rule-set resolution of `CheckActionCompliance` including its final
"default to allow mode if not specified" inference block (policy.go). -/
def resolveEffective (policy : PolicyConfig) (repoName : String) :
    List String × List String × String :=
  let r := resolveEffectiveRaw policy repoName
  if r.2.2 = "" then (r.1, r.2.1, defaultPolicyMode r.1 r.2.1) else r

/-- The per-action checking loop of `CheckActionCompliance` (policy.go):
in allow mode an action violates when neither its normalized nor its raw form
is in the allowed list; in deny mode it violates when either form is in the
denied list; under any other mode string nothing is flagged. -/
def checkActions (policyMode : String) (allowedActions deniedActions : List String) :
    List String → List String
  | [] => []
  | actionWithVersion :: rest =>
      let action := normalizeAction actionWithVersion
      let tail := checkActions policyMode allowedActions deniedActions rest
      if policyMode = "allow" then
        if !(contains allowedActions action) && !(contains allowedActions actionWithVersion) then
          actionWithVersion :: tail
        else tail
      else if policyMode = "deny" then
        if contains deniedActions action || contains deniedActions actionWithVersion then
          actionWithVersion :: tail
        else tail
      else tail

/-- `CheckActionCompliance` (policy.go). -/
def CheckActionCompliance (policy : PolicyConfig) (repoName : String)
    (actions : List String) : List String × Bool :=
  if contains policy.excludedRepos repoName then ([], true)
  else
    let r := resolveEffective policy repoName
    let violations := checkActions r.2.2 r.1 r.2.1 actions
    (violations, violations.length == 0)

/-- `github.Action` (repositories.go): one observed action use inside a
workflow file. -/
structure Action where
  name : String
  uses : String
  deriving DecidableEq

/-- `ActionExporter` (export.go): configuration of the policy exporter. -/
structure ActionExporter where
  includeVersions : Bool := false
  outputPath : String := "policy.yaml"
  includeCustom : Bool := false
  policyMode : String := "allow"
  deriving DecidableEq

/-- `normalizeActionName` (export.go): when versions are not retained, strips
everything from the last `@` on (Go `action[:strings.LastIndex(action, "@")]`). -/
def normalizeActionName (action : String) (includeVersion : Bool) : String :=
  if !includeVersion && action.data.contains '@' then
    ⟨(((action.data.reverse).dropWhile (fun c => c ≠ '@')).tail).reverse⟩
  else action

/-- Insertion into the `uniqueActions` set of `GeneratePolicyFromActions`
(export.go, a Go `map[string]bool` used as a set). -/
def addUnique (seen : List String) (x : String) : List String :=
  if contains seen x then seen else seen ++ [x]

/-- One comparison step of Go string ordering: `a <= b` byte-lexicographically.
UTF-8 byte order coincides with code-point order, so the model compares the
character lists. -/
def strLeChars : List Char → List Char → Bool
  | [], _ => true
  | _ :: _, [] => false
  | a :: as, b :: bs =>
      if a < b then true
      else if b < a then false
      else strLeChars as bs

/-- Go string ordering `a <= b`, as used by `sort.Strings`. -/
def strLe (a b : String) : Bool := strLeChars a.data b.data

/-- Sorted insertion, the building block of the model of `sort.Strings`. -/
def insertSorted (x : String) : List String → List String
  | [] => [x]
  | y :: ys => if strLe x y then x :: y :: ys else y :: insertSorted x ys

/-- Model of `sort.Strings` (export.go): sorts a string slice in byte order.
The Go implementation is an in-place comparison sort; any comparison sort
computes the same list, here realised as insertion sort. -/
def sortStrings : List String → List String
  | [] => []
  | x :: xs => insertSorted x (sortStrings xs)

/-- The normalized names of one repository's observed actions, in order
(export.go: `normalizeActionName(action.Uses, e.IncludeVersions)` per action). -/
def repoActionNames (e : ActionExporter) (actions : List Action) : List String :=
  actions.map fun a => normalizeActionName a.uses e.includeVersions

/-- The per-repository custom rule built by `GeneratePolicyFromActions`
(export.go) when `IncludeCustom` is set: the repository's own normalized
action names, sorted, in the list matching the exporter's mode. -/
def exportRepoRule (e : ActionExporter) (actions : List Action) : Policy :=
  if e.policyMode = "allow" then
    { allowedActions := sortStrings (repoActionNames e actions)
      deniedActions := []
      policyMode := e.policyMode }
  else if e.policyMode = "deny" then
    { allowedActions := []
      deniedActions := sortStrings (repoActionNames e actions)
      policyMode := e.policyMode }
  else
    { allowedActions := [], deniedActions := [], policyMode := e.policyMode }

/-- `GeneratePolicyFromActions` (export.go).  The Go function accumulates the
`uniqueActions` set and the custom-rules map in a single pass over the
(unordered) `actionsMap`; the model splits the two accumulations over the
association list, which agrees with every iteration order because the set and
the keyed map are order-insensitive and the global list is sorted at the end. -/
def GeneratePolicyFromActions (e : ActionExporter)
    (actionsMap : List (String × List Action)) : Except String PolicyConfig :=
  if e.policyMode = "allow" ∨ e.policyMode = "deny" then
    let uniqueActions :=
      actionsMap.foldl (fun seen p => (repoActionNames e p.2).foldl addUnique seen) []
    let uniqueActionsList := sortStrings uniqueActions
    let customRules :=
      if e.includeCustom then
        actionsMap.foldl (fun rules p => insertRule rules p.1 (exportRepoRule e p.2)) []
      else []
    Except.ok
      { allowedActions := if e.policyMode = "allow" then uniqueActionsList else []
        deniedActions := if e.policyMode = "deny" then uniqueActionsList else []
        excludedRepos := []
        customRules := customRules
        policyMode := e.policyMode }
  else
    Except.error ("invalid policy mode: " ++ e.policyMode ++ ", must be allow or deny")

/-- Modelled from the spec: `ExportPolicyFile` (export.go) marshals the policy
to YAML, prepends a comment header and writes the file; `LoadPolicyConfig`
(policy.go) reads the file back, parses the YAML and applies the default-mode
post-processing.  The marshal/parse round trip of the external yaml library
and the filesystem write/read are not part of this repository and are
modelled as the identity on the in-memory document, so the round trip reduces
to `applyDefaultMode`. -/
def exportLoadRoundTrip (config : PolicyConfig) : PolicyConfig :=
  applyDefaultMode config

/-- Spec-side definition (from the round-trip property's words): the
deduplicated, lexicographically sorted union of all `uses` references across
the input map, each version-stripped unless `includeVersions` is set. -/
def specExportedAllowed (includeVersions : Bool)
    (actionsMap : List (String × List Action)) : List String :=
  sortStrings
    ((((actionsMap.map Prod.snd).flatten).map
        (fun a => normalizeActionName a.uses includeVersions)).dedup)

/-! ## Helper lemmas -/

theorem contains_iff_mem (l : List String) (x : String) : contains l x = true ↔ x ∈ l := by
  induction l with
  | nil => simp [contains]
  | cons s rest ih =>
      simp only [contains, List.mem_cons]
      by_cases h : s = x
      · simp [h]
      · simp only [h, if_false, ih]
        constructor
        · exact Or.inr
        · rintro (hx | hx)
          · exact absurd hx.symm h
          · exact hx

theorem contains_eq_false_iff (l : List String) (x : String) :
    contains l x = false ↔ x ∉ l := by
  rw [← contains_iff_mem l x]
  cases contains l x <;> simp

theorem lookupRule_insertRule_self (m : List (String × Policy)) (k : String) (v : Policy) :
    lookupRule (insertRule m k v) k = some v := by
  induction m with
  | nil => simp [insertRule, lookupRule]
  | cons p rest ih =>
      by_cases h : p.1 = k
      · simp [insertRule, h, lookupRule]
      · simp [insertRule, h, lookupRule, ih]

theorem lookupRule_insertRule_ne (m : List (String × Policy)) (k k' : String) (v : Policy)
    (h : k' ≠ k) : lookupRule (insertRule m k v) k' = lookupRule m k' := by
  have h' : ¬(k = k') := fun hx => h hx.symm
  induction m with
  | nil => simp [insertRule, lookupRule, h']
  | cons p rest ih =>
      by_cases hp : p.1 = k
      · have hp' : ¬(p.1 = k') := fun hx => h' (hp.symm.trans hx)
        simp [insertRule, hp, lookupRule, hp', h']
      · by_cases hq : p.1 = k'
        · simp [insertRule, hp, lookupRule, hq, h]
        · simp [insertRule, hp, lookupRule, hq, ih]

theorem insertRule_insertRule (m : List (String × Policy)) (k : String) (v : Policy) :
    insertRule (insertRule m k v) k v = insertRule m k v := by
  induction m with
  | nil => simp [insertRule]
  | cons p rest ih =>
      by_cases h : p.1 = k
      · simp [insertRule, h]
      · simp [insertRule, h, ih]

theorem mem_addUnique (seen : List String) (x y : String) :
    y ∈ addUnique seen x ↔ y ∈ seen ∨ y = x := by
  unfold addUnique
  by_cases h : contains seen x = true
  · have hx : x ∈ seen := (contains_iff_mem seen x).mp h
    simp [h]
    intro hy; subst hy; exact hx
  · simp [h]

theorem nodup_addUnique (seen : List String) (x : String) (h : seen.Nodup) :
    (addUnique seen x).Nodup := by
  unfold addUnique
  by_cases hc : contains seen x = true
  · simpa [hc]
  · have hx : x ∉ seen := (contains_eq_false_iff seen x).mp (by simpa using hc)
    simp [hc, List.nodup_append, h, hx]

theorem mem_foldl_addUnique (l : List String) (acc : List String) (y : String) :
    y ∈ l.foldl addUnique acc ↔ y ∈ acc ∨ y ∈ l := by
  induction l generalizing acc with
  | nil => simp
  | cons x xs ih =>
      simp only [List.foldl_cons, ih, mem_addUnique, List.mem_cons]
      tauto

theorem nodup_foldl_addUnique (l : List String) (acc : List String) (h : acc.Nodup) :
    (l.foldl addUnique acc).Nodup := by
  induction l generalizing acc with
  | nil => simpa
  | cons x xs ih => exact ih _ (nodup_addUnique _ _ h)

theorem strLeChars_total (a b : List Char) : strLeChars a b = true ∨ strLeChars b a = true := by
  induction a generalizing b with
  | nil => left; rfl
  | cons x xs ih =>
      cases b with
      | nil => right; rfl
      | cons y ys =>
          by_cases h1 : x < y
          · left; simp [strLeChars, h1]
          · by_cases h2 : y < x
            · right; simp [strLeChars, h2, asymm h2]
            · rcases ih ys with h | h <;> [left; right] <;> simp [strLeChars, h1, h2, h]

theorem strLeChars_antisymm {a b : List Char} (h1 : strLeChars a b = true)
    (h2 : strLeChars b a = true) : a = b := by
  induction a generalizing b with
  | nil =>
      cases b with
      | nil => rfl
      | cons y ys => simp [strLeChars] at h2
  | cons x xs ih =>
      cases b with
      | nil => simp [strLeChars] at h1
      | cons y ys =>
          by_cases hxy : x < y
          · simp [strLeChars, hxy, asymm hxy] at h2
          · by_cases hyx : y < x
            · simp [strLeChars, hxy, hyx] at h1
            · have hx : x = y := le_antisymm (not_lt.mp hyx) (not_lt.mp hxy)
              subst hx
              simp [strLeChars, hxy] at h1 h2
              rw [ih h1 h2]

theorem strLeChars_trans {a b c : List Char} (h1 : strLeChars a b = true)
    (h2 : strLeChars b c = true) : strLeChars a c = true := by
  induction a generalizing b c with
  | nil => rfl
  | cons x xs ih =>
      cases b with
      | nil => simp [strLeChars] at h1
      | cons y ys =>
          cases c with
          | nil => simp [strLeChars] at h2
          | cons z zs =>
              by_cases hxy : x < y <;> by_cases hyz : y < z
              · have hxz : x < z := lt_trans hxy hyz
                simp [strLeChars, hxz]
              · by_cases hzy : z < y
                · simp [strLeChars, hyz, hzy] at h2
                · have e : y = z := le_antisymm (not_lt.mp hzy) (not_lt.mp hyz)
                  subst e
                  simp [strLeChars, hxy]
              · by_cases hyx : y < x
                · simp [strLeChars, hxy, hyx] at h1
                · have e : x = y := le_antisymm (not_lt.mp hyx) (not_lt.mp hxy)
                  subst e
                  simp [strLeChars, hyz]
              · by_cases hyx : y < x
                · simp [strLeChars, hxy, hyx] at h1
                · by_cases hzy : z < y
                  · simp [strLeChars, hyz, hzy] at h2
                  · have e1 : x = y := le_antisymm (not_lt.mp hyx) (not_lt.mp hxy)
                    have e2 : y = z := le_antisymm (not_lt.mp hzy) (not_lt.mp hyz)
                    subst e1; subst e2
                    simp [strLeChars, hxy] at h1 h2 ⊢
                    exact ih h1 h2

theorem strLe_total (a b : String) : strLe a b = true ∨ strLe b a = true :=
  strLeChars_total a.data b.data

theorem strLe_antisymm {a b : String} (h1 : strLe a b = true) (h2 : strLe b a = true) :
    a = b := by
  cases a; cases b
  exact congrArg String.mk (strLeChars_antisymm h1 h2)

theorem strLe_trans {a b c : String} (h1 : strLe a b = true) (h2 : strLe b c = true) :
    strLe a c = true :=
  strLeChars_trans h1 h2

theorem insertSorted_perm (x : String) (l : List String) :
    List.Perm (insertSorted x l) (x :: l) := by
  induction l with
  | nil => simp [insertSorted]
  | cons y ys ih =>
      by_cases h : strLe x y = true
      · simp [insertSorted, h]
      · simp only [insertSorted, h]
        exact List.Perm.trans (List.Perm.cons y ih) (List.Perm.swap x y ys)

theorem sortStrings_perm (l : List String) : List.Perm (sortStrings l) l := by
  induction l with
  | nil => simp [sortStrings]
  | cons x xs ih =>
      exact List.Perm.trans (insertSorted_perm x (sortStrings xs)) (List.Perm.cons x ih)

theorem insertSorted_sorted (x : String) (l : List String)
    (h : l.Pairwise (fun a b => strLe a b = true)) :
    (insertSorted x l).Pairwise (fun a b => strLe a b = true) := by
  induction l with
  | nil => simp [insertSorted]
  | cons y ys ih =>
      by_cases hxy : strLe x y = true
      · rw [show insertSorted x (y :: ys) = x :: y :: ys by simp [insertSorted, hxy]]
        refine List.Pairwise.cons ?_ h
        intro z hz
        rcases List.mem_cons.mp hz with hz | hz
        · subst hz; exact hxy
        · exact strLe_trans hxy (List.rel_of_pairwise_cons h hz)
      · rw [show insertSorted x (y :: ys) = y :: insertSorted x ys by simp [insertSorted, hxy]]
        have hyx : strLe y x = true := (strLe_total x y).resolve_left hxy
        rcases List.pairwise_cons.mp h with ⟨hy, hys⟩
        refine List.Pairwise.cons ?_ (ih hys)
        intro z hz
        have : z ∈ x :: ys := (insertSorted_perm x ys).mem_iff.mp hz
        rcases List.mem_cons.mp this with hz | hz
        · subst hz; exact hyx
        · exact hy z hz

theorem sortStrings_sorted (l : List String) :
    (sortStrings l).Pairwise (fun a b => strLe a b = true) := by
  induction l with
  | nil => simp [sortStrings]
  | cons x xs ih => exact insertSorted_sorted x (sortStrings xs) ih

theorem sortStrings_eq_of_perm {l₁ l₂ : List String} (h : List.Perm l₁ l₂) :
    sortStrings l₁ = sortStrings l₂ := by
  haveI : IsAntisymm String (fun a b => strLe a b = true) := ⟨fun _ _ => strLe_antisymm⟩
  exact List.eq_of_perm_of_sorted
    (((sortStrings_perm l₁).trans h).trans (sortStrings_perm l₂).symm)
    (sortStrings_sorted l₁) (sortStrings_sorted l₂)

theorem checkActions_allow (A D : List String) (actions : List String) :
    checkActions "allow" A D actions =
      actions.filter (fun a => !(contains A (normalizeAction a)) && !(contains A a)) := by
  induction actions with
  | nil => rfl
  | cons a rest ih =>
      simp only [checkActions, ih, List.filter_cons]
      simp

theorem checkActions_deny (A D : List String) (actions : List String) :
    checkActions "deny" A D actions =
      actions.filter (fun a => contains D (normalizeAction a) || contains D a) := by
  induction actions with
  | nil => rfl
  | cons a rest ih =>
      simp only [checkActions, ih, List.filter_cons]
      simp

theorem checkActions_other (m : String) (A D : List String) (actions : List String)
    (h1 : m ≠ "allow") (h2 : m ≠ "deny") : checkActions m A D actions = [] := by
  induction actions with
  | nil => rfl
  | cons a rest ih => simp [checkActions, h1, h2, ih]

theorem foldl_addUnique_flatten (L : List (List String)) (acc : List String) :
    L.foldl (fun seen l => l.foldl addUnique seen) acc = L.flatten.foldl addUnique acc := by
  induction L generalizing acc with
  | nil => rfl
  | cons l ls ih => simp [List.flatten_cons, ih, List.foldl_append]

theorem flatten_repoActionNames (e : ActionExporter) (actionsMap : List (String × List Action)) :
    (actionsMap.map fun p => repoActionNames e p.2).flatten
      = ((actionsMap.map Prod.snd).flatten).map
          (fun a => normalizeActionName a.uses e.includeVersions) := by
  induction actionsMap with
  | nil => rfl
  | cons p ps ih => simp [repoActionNames, ih, Function.comp_def]

/-! ## Claims -/

/-- C1: under an effective allow mode the violations are exactly the observed
actions (in order) whose normalized and raw forms are both absent from the
resolved allow list; with an empty resolved allow list every observed action
is a violation. -/
theorem allow_mode_violations (policy : PolicyConfig) (repoName : String)
    (actions : List String)
    (hex : contains policy.excludedRepos repoName = false)
    (hmode : (resolveEffective policy repoName).2.2 = "allow") :
    (CheckActionCompliance policy repoName actions).1 =
      actions.filter (fun a =>
        !(contains (resolveEffective policy repoName).1 (normalizeAction a)) &&
        !(contains (resolveEffective policy repoName).1 a)) ∧
    ((resolveEffective policy repoName).1 = [] →
      (CheckActionCompliance policy repoName actions).1 = actions) := by
  have hmain : (CheckActionCompliance policy repoName actions).1
      = checkActions (resolveEffective policy repoName).2.2
          (resolveEffective policy repoName).1 (resolveEffective policy repoName).2.1 actions := by
    simp [CheckActionCompliance, hex]
  rw [hmain, hmode, checkActions_allow]
  refine ⟨rfl, fun h0 => ?_⟩
  rw [h0]
  simp [contains]

/-- C2: under an effective deny mode the violations are exactly the observed
actions (in order) whose normalized or raw form appears in the resolved deny
list; with an empty resolved deny list the check returns no violations and the
repository is compliant. -/
theorem deny_mode_violations (policy : PolicyConfig) (repoName : String)
    (actions : List String)
    (hex : contains policy.excludedRepos repoName = false)
    (hmode : (resolveEffective policy repoName).2.2 = "deny") :
    (CheckActionCompliance policy repoName actions).1 =
      actions.filter (fun a =>
        contains (resolveEffective policy repoName).2.1 (normalizeAction a) ||
        contains (resolveEffective policy repoName).2.1 a) ∧
    ((resolveEffective policy repoName).2.1 = [] →
      CheckActionCompliance policy repoName actions = ([], true)) := by
  have hfull : CheckActionCompliance policy repoName actions
      = (checkActions (resolveEffective policy repoName).2.2
          (resolveEffective policy repoName).1 (resolveEffective policy repoName).2.1 actions,
         (checkActions (resolveEffective policy repoName).2.2
          (resolveEffective policy repoName).1 (resolveEffective policy repoName).2.1
            actions).length == 0) := by
    simp [CheckActionCompliance, hex]
  constructor
  · rw [show (CheckActionCompliance policy repoName actions).1
        = checkActions (resolveEffective policy repoName).2.2
            (resolveEffective policy repoName).1 (resolveEffective policy repoName).2.1 actions
        from congrArg Prod.fst hfull]
    rw [hmode, checkActions_deny]
  · intro h0
    rw [hfull, hmode, checkActions_deny, h0]
    simp [contains]

/-- C3: a repository listed in `excludedRepos` is unconditionally compliant
with no violations, for every policy mode, rule list and observed-action
input. -/
theorem excluded_repo_compliant (policy : PolicyConfig) (repoName : String)
    (actions : List String) (hex : repoName ∈ policy.excludedRepos) :
    CheckActionCompliance policy repoName actions = ([], true) := by
  have h : contains policy.excludedRepos repoName = true := (contains_iff_mem _ _).mpr hex
  simp [CheckActionCompliance, h]

/-- Witness for C1: an allow list containing only the pinned
`actions/checkout@v3` does not match the observed unpinned `actions/checkout`,
while the pinned observation matches exactly. -/
theorem allow_mode_violations_witness :
    (CheckActionCompliance
        { policyMode := "allow", allowedActions := ["actions/checkout@v3"] }
        "org/r1" ["actions/checkout", "actions/setup-node@v2", "actions/checkout@v3"]).1
      = ["actions/checkout", "actions/setup-node@v2"] :=
  ((allow_mode_violations _ "org/r1" _ (by decide) (by decide)).1).trans (by decide)

/-- Witness for C2: a deny-mode policy flags a listed action observed with a
version suffix, and a deny-mode policy with an empty deny list flags nothing. -/
theorem deny_mode_violations_witness :
    (CheckActionCompliance { policyMode := "deny", deniedActions := ["unsafe/action"] }
        "org/r1" ["actions/checkout@v3", "unsafe/action@v1"]).1 = ["unsafe/action@v1"] ∧
    CheckActionCompliance { policyMode := "deny" } "org/r2" ["any/action@v1"] = ([], true) :=
  ⟨((deny_mode_violations _ "org/r1" _ (by decide) (by decide)).1).trans (by decide),
   (deny_mode_violations _ "org/r2" _ (by decide) (by decide)).2 (by decide)⟩

/-- Witness for C3: an excluded repository is compliant even against a policy
that would otherwise flag every observed action. -/
theorem excluded_repo_compliant_witness :
    CheckActionCompliance
      { policyMode := "allow", allowedActions := [], excludedRepos := ["org/excluded"] }
      "org/excluded" ["any/action@v1", "another/action@v2"] = ([], true) :=
  excluded_repo_compliant _ _ _ (by decide)

/-- C4: resolution against a custom rule: the mode is the custom rule's when
set, else the global mode; under the resolved mode, an empty custom list for
that mode inherits the global list and a non-empty one is used unchanged. -/
theorem custom_rule_resolution (policy : PolicyConfig) (repoName : String) (rule : Policy)
    (hrule : lookupRule policy.customRules repoName = some rule) :
    (resolveEffectiveRaw policy repoName).2.2
        = (if rule.policyMode = "" then policy.policyMode else rule.policyMode) ∧
    ((if rule.policyMode = "" then policy.policyMode else rule.policyMode) = "allow" →
      (rule.allowedActions = [] →
        (resolveEffectiveRaw policy repoName).1 = policy.allowedActions) ∧
      (rule.allowedActions ≠ [] →
        (resolveEffectiveRaw policy repoName).1 = rule.allowedActions)) ∧
    ((if rule.policyMode = "" then policy.policyMode else rule.policyMode) = "deny" →
      (rule.deniedActions = [] →
        (resolveEffectiveRaw policy repoName).2.1 = policy.deniedActions) ∧
      (rule.deniedActions ≠ [] →
        (resolveEffectiveRaw policy repoName).2.1 = rule.deniedActions)) := by
  have hr : resolveEffectiveRaw policy repoName =
      (if (if rule.policyMode = "" then policy.policyMode else rule.policyMode) = "allow"
            ∧ rule.allowedActions.length = 0 then
        (policy.allowedActions, rule.deniedActions,
          if rule.policyMode = "" then policy.policyMode else rule.policyMode)
      else if (if rule.policyMode = "" then policy.policyMode else rule.policyMode) = "deny"
            ∧ rule.deniedActions.length = 0 then
        (rule.allowedActions, policy.deniedActions,
          if rule.policyMode = "" then policy.policyMode else rule.policyMode)
      else (rule.allowedActions, rule.deniedActions,
          if rule.policyMode = "" then policy.policyMode else rule.policyMode)) := by
    simp [resolveEffectiveRaw, hrule]
  rw [hr]
  refine ⟨?_, fun hma => ⟨fun hae => ?_, fun hane => ?_⟩, fun hmd => ⟨fun hde => ?_, fun hdne => ?_⟩⟩
  · split_ifs <;> rfl
  · simp [hma, hae]
  · have hlen : ¬rule.allowedActions.length = 0 := by simpa using hane
    simp [hma, hlen]
  · have hnm : ¬((if rule.policyMode = "" then policy.policyMode else rule.policyMode) = "allow"
        ∧ rule.allowedActions.length = 0) := by
      rw [hmd]; simp
    simp [hnm, hmd, hde]
  · have hnm : ¬((if rule.policyMode = "" then policy.policyMode else rule.policyMode) = "allow"
        ∧ rule.allowedActions.length = 0) := by
      rw [hmd]; simp
    have hlen : ¬rule.deniedActions.length = 0 := by simpa using hdne
    simp [hnm, hmd, hlen]

/-- Witness for C4: a custom rule that only switches the mode to allow (with an
empty allowed list) inherits the global allowed list; a custom rule with its
own non-empty list keeps it. -/
theorem custom_rule_resolution_witness :
    (resolveEffectiveRaw
        { policyMode := "deny", allowedActions := ["g/a"], deniedActions := ["g/d"],
          customRules := [("org/r1", { policyMode := "allow" })] } "org/r1").1 = ["g/a"] ∧
    (resolveEffectiveRaw
        { policyMode := "deny", deniedActions := ["g/d"],
          customRules := [("org/r2", { deniedActions := ["x/y"] })] } "org/r2").2.1 = ["x/y"] :=
  ⟨((custom_rule_resolution _ "org/r1" { policyMode := "allow" }
      (by decide)).2.1 (by decide)).1 (by decide),
   ((custom_rule_resolution _ "org/r2" { deniedActions := ["x/y"] }
      (by decide)).2.2 (by decide)).2 (by decide)⟩

/-- C7: a blank mode is inferred as allow when the allowed list is non-empty,
else deny when the denied list is non-empty, else allow; the inference is the
post-parse step of `LoadPolicyConfig` and the final defaulting step of
`CheckActionCompliance`, and a non-blank mode is never changed. -/
theorem default_mode_inference (c : PolicyConfig) (p : PolicyConfig) (r : String) :
    (c.policyMode = "" → (applyDefaultMode c).policyMode =
      (if c.allowedActions ≠ [] then "allow"
       else if c.deniedActions ≠ [] then "deny" else "allow")) ∧
    (c.policyMode ≠ "" → applyDefaultMode c = c) ∧
    ((resolveEffectiveRaw p r).2.2 = "" → (resolveEffective p r).2.2 =
      (if (resolveEffectiveRaw p r).1 ≠ [] then "allow"
       else if (resolveEffectiveRaw p r).2.1 ≠ [] then "deny" else "allow")) ∧
    ((resolveEffectiveRaw p r).2.2 ≠ "" →
      (resolveEffective p r).2.2 = (resolveEffectiveRaw p r).2.2) := by
  have hbridge : ∀ A B : List String, defaultPolicyMode A B =
      (if A ≠ [] then "allow" else if B ≠ [] then "deny" else "allow") := by
    intro A B
    by_cases ha : A = [] <;> by_cases hb : B = [] <;>
      simp [defaultPolicyMode, ha, hb, List.length_pos]
  refine ⟨fun h => ?_, fun h => ?_, fun h => ?_, fun h => ?_⟩
  · simp [applyDefaultMode, h, hbridge]
  · simp [applyDefaultMode, h]
  · simp [resolveEffective, h, hbridge]
  · simp [resolveEffective, h]

/-- Witness for C7: a document with only a denied list infers deny mode, one
with both lists infers allow, and an explicit mode is preserved. -/
theorem default_mode_inference_witness :
    (applyDefaultMode { deniedActions := ["unsafe/action"] }).policyMode = "deny" ∧
    (applyDefaultMode { allowedActions := ["a/b"], deniedActions := ["c/d"] }).policyMode
      = "allow" ∧
    applyDefaultMode { policyMode := "deny", allowedActions := ["a/b"] }
      = { policyMode := "deny", allowedActions := ["a/b"] } :=
  ⟨((default_mode_inference { deniedActions := ["unsafe/action"] }
      { } "org/r").1 (by decide)).trans (by decide),
   ((default_mode_inference { allowedActions := ["a/b"], deniedActions := ["c/d"] }
      { } "org/r").1 (by decide)).trans (by decide),
   (default_mode_inference { policyMode := "deny", allowedActions := ["a/b"] }
      { } "org/r").2.1 (by decide)⟩

/-- C10: a resolved non-empty mode other than exactly allow or deny undergoes
no inference and permits every observed action: the check returns no
violations and reports compliance. -/
theorem unknown_mode_always_compliant (policy : PolicyConfig) (repoName : String)
    (actions : List String)
    (hex : contains policy.excludedRepos repoName = false)
    (hm0 : (resolveEffectiveRaw policy repoName).2.2 ≠ "")
    (hm1 : (resolveEffectiveRaw policy repoName).2.2 ≠ "allow")
    (hm2 : (resolveEffectiveRaw policy repoName).2.2 ≠ "deny") :
    (resolveEffective policy repoName).2.2 = (resolveEffectiveRaw policy repoName).2.2 ∧
    CheckActionCompliance policy repoName actions = ([], true) := by
  have heff : resolveEffective policy repoName = resolveEffectiveRaw policy repoName := by
    simp [resolveEffective, hm0]
  have hch : checkActions (resolveEffectiveRaw policy repoName).2.2
      (resolveEffectiveRaw policy repoName).1 (resolveEffectiveRaw policy repoName).2.1
      actions = [] :=
    checkActions_other _ _ _ _ hm1 hm2
  refine ⟨by rw [heff], ?_⟩
  simp [CheckActionCompliance, hex, heff, hch]

/-- Witness for C10: a policy whose mode is the capitalized string `Allow`
silently permits an action that is on no list. -/
theorem unknown_mode_always_compliant_witness :
    CheckActionCompliance { policyMode := "Allow", allowedActions := ["actions/checkout"] }
      "org/r1" ["evil/evil@v1"] = ([], true) :=
  (unknown_mode_always_compliant _ "org/r1" _
    (by decide) (by decide) (by decide) (by decide)).2

/-- C5: the merge either takes the override's custom rule for the repository
wholesale, or synthesizes a custom rule from the override's top-level lists
(mode: explicit override mode, else inferred from the populated list, else the
global mode), or leaves the policy equal to the global one. -/
theorem merge_override_cases (g o : PolicyConfig) (r : String) :
    (∀ rule, lookupRule o.customRules r = some rule →
      lookupRule (MergeRepoPolicy g o r).customRules r = some rule) ∧
    (lookupRule o.customRules r = none →
      (o.allowedActions ≠ [] ∨ o.deniedActions ≠ []) →
      lookupRule (MergeRepoPolicy g o r).customRules r = some
        { allowedActions := o.allowedActions
          deniedActions := o.deniedActions
          policyMode :=
            if o.policyMode ≠ "" then o.policyMode
            else if o.allowedActions ≠ [] then "allow"
            else if o.deniedActions ≠ [] then "deny"
            else g.policyMode }) ∧
    (lookupRule o.customRules r = none → o.allowedActions = [] → o.deniedActions = [] →
      MergeRepoPolicy g o r = g) := by
  refine ⟨fun rule hsome => ?_, fun hnone hne => ?_, fun hnone ha hd => ?_⟩
  · simp [MergeRepoPolicy, hsome, lookupRule_insertRule_self]
  · have hc : o.allowedActions.length > 0 ∨ o.deniedActions.length > 0 := by
      rcases hne with h | h
      · exact Or.inl (List.length_pos.mpr h)
      · exact Or.inr (List.length_pos.mpr h)
    simp only [MergeRepoPolicy, hnone, hc, if_pos, lookupRule_insertRule_self]
    by_cases hm : o.policyMode = "" <;>
      by_cases hal : o.allowedActions = [] <;>
        simp [determineRepoMode, hm, hal, List.length_pos]
  · simp [MergeRepoPolicy, hnone, ha, hd]

/-- Witness for C5 at concrete inputs: a nested custom rule is taken wholesale,
a flat override synthesizes an allow rule, and an override with neither form
leaves the global policy unchanged. -/
theorem merge_override_cases_witness :
    lookupRule (MergeRepoPolicy { policyMode := "allow", allowedActions := ["a/b"] }
        { customRules := [("org/r1", { policyMode := "deny", deniedActions := ["x/y"] })] }
        "org/r1").customRules "org/r1"
      = some { policyMode := "deny", deniedActions := ["x/y"] } ∧
    lookupRule (MergeRepoPolicy { policyMode := "deny", deniedActions := ["g/d"] }
        { allowedActions := ["c/d"] } "org/r2").customRules "org/r2"
      = some { allowedActions := ["c/d"], policyMode := "allow" } ∧
    MergeRepoPolicy { policyMode := "allow", allowedActions := ["a/b"] }
        { policyMode := "deny" } "org/r3"
      = { policyMode := "allow", allowedActions := ["a/b"] } :=
  ⟨(merge_override_cases _ _ "org/r1").1 _ (by decide),
   ((merge_override_cases _ _ "org/r2").2.1 (by decide) (by decide)).trans (by decide),
   (merge_override_cases _ _ "org/r3").2.2 (by decide) (by decide) (by decide)⟩

/-- C6: the merge never changes the global mode, global lists, excluded repos,
or any custom rule keyed by another repository; the global policy value itself
is untouched (the model is pure, so non-mutation of the input is inherent and
the observable content is the field-preservation stated here). -/
theorem merge_preserves_global (g o : PolicyConfig) (r : String) :
    (MergeRepoPolicy g o r).policyMode = g.policyMode ∧
    (MergeRepoPolicy g o r).allowedActions = g.allowedActions ∧
    (MergeRepoPolicy g o r).deniedActions = g.deniedActions ∧
    (MergeRepoPolicy g o r).excludedRepos = g.excludedRepos ∧
    ∀ k, k ≠ r →
      lookupRule (MergeRepoPolicy g o r).customRules k = lookupRule g.customRules k := by
  cases hlk : lookupRule o.customRules r with
  | some rule =>
      refine ⟨by simp [MergeRepoPolicy, hlk], by simp [MergeRepoPolicy, hlk],
        by simp [MergeRepoPolicy, hlk], by simp [MergeRepoPolicy, hlk], fun k hk => ?_⟩
      simp [MergeRepoPolicy, hlk, lookupRule_insertRule_ne _ _ _ _ hk]
  | none =>
      by_cases hc : o.allowedActions.length > 0 ∨ o.deniedActions.length > 0
      · refine ⟨by simp [MergeRepoPolicy, hlk, hc], by simp [MergeRepoPolicy, hlk, hc],
          by simp [MergeRepoPolicy, hlk, hc], by simp [MergeRepoPolicy, hlk, hc],
          fun k hk => ?_⟩
        simp [MergeRepoPolicy, hlk, hc, lookupRule_insertRule_ne _ _ _ _ hk]
      · refine ⟨by simp [MergeRepoPolicy, hlk, hc], by simp [MergeRepoPolicy, hlk, hc],
          by simp [MergeRepoPolicy, hlk, hc], by simp [MergeRepoPolicy, hlk, hc],
          fun k hk => by simp [MergeRepoPolicy, hlk, hc]⟩

/-- Witness for C6: merging an override for `org/r1` leaves the global lists,
mode and the custom rule of `org/keep` intact. -/
theorem merge_preserves_global_witness :
    (MergeRepoPolicy
        { policyMode := "allow", allowedActions := ["a/b"],
          customRules := [("org/keep", { allowedActions := ["k/k"] })] }
        { allowedActions := ["c/d"] } "org/r1").allowedActions = ["a/b"] ∧
    lookupRule (MergeRepoPolicy
        { policyMode := "allow", allowedActions := ["a/b"],
          customRules := [("org/keep", { allowedActions := ["k/k"] })] }
        { allowedActions := ["c/d"] } "org/r1").customRules "org/keep"
      = some { allowedActions := ["k/k"] } :=
  ⟨((merge_preserves_global _ _ "org/r1").2.1).trans (by decide),
   ((merge_preserves_global _ _ "org/r1").2.2.2.2 "org/keep" (by decide)).trans (by decide)⟩

/-- C8: merging the same override document for the same repository a second
time yields the same policy as merging it once. -/
theorem merge_idempotent (g o : PolicyConfig) (r : String) :
    MergeRepoPolicy (MergeRepoPolicy g o r) o r = MergeRepoPolicy g o r := by
  cases hlk : lookupRule o.customRules r with
  | some rule =>
      simp [MergeRepoPolicy, hlk, insertRule_insertRule]
  | none =>
      by_cases hc : o.allowedActions.length > 0 ∨ o.deniedActions.length > 0
      · simp [MergeRepoPolicy, hlk, hc, insertRule_insertRule]
      · simp [MergeRepoPolicy, hlk, hc]

/-- C9: exporting an allow-mode policy generated from an observed-actions map
and loading it back yields a configuration whose allowed list is the
deduplicated, lexicographically sorted union of all observed `uses`
references, version-stripped unless versions are retained. -/
theorem export_roundtrip (e : ActionExporter) (actionsMap : List (String × List Action))
    (hmode : e.policyMode = "allow") :
    ∃ config, GeneratePolicyFromActions e actionsMap = Except.ok config ∧
      (exportLoadRoundTrip config).allowedActions
        = specExportedAllowed e.includeVersions actionsMap := by
  have hgen : GeneratePolicyFromActions e actionsMap = Except.ok
      { allowedActions := sortStrings (actionsMap.foldl
          (fun seen p => (repoActionNames e p.2).foldl addUnique seen) [])
        deniedActions := []
        excludedRepos := []
        customRules := if e.includeCustom then
            actionsMap.foldl (fun rules p => insertRule rules p.1 (exportRepoRule e p.2)) []
          else []
        policyMode := e.policyMode } := by
    simp [GeneratePolicyFromActions, hmode]
  have hperm : List.Perm
      ((actionsMap.map fun p => repoActionNames e p.2).flatten.foldl addUnique [])
      ((actionsMap.map fun p => repoActionNames e p.2).flatten.dedup) := by
    refine (List.perm_ext_iff_of_nodup
      (nodup_foldl_addUnique _ _ List.nodup_nil) (List.nodup_dedup _)).mpr ?_
    intro a
    rw [mem_foldl_addUnique, List.mem_dedup]
    simp
  have hmain : sortStrings (actionsMap.foldl
        (fun seen p => (repoActionNames e p.2).foldl addUnique seen) [])
      = specExportedAllowed e.includeVersions actionsMap := by
    have hstep : actionsMap.foldl
          (fun seen p => (repoActionNames e p.2).foldl addUnique seen) []
        = (actionsMap.map fun p => repoActionNames e p.2).foldl
            (fun seen l => l.foldl addUnique seen) [] := by
      rw [List.foldl_map]
    rw [hstep, foldl_addUnique_flatten, specExportedAllowed, ← flatten_repoActionNames]
    exact sortStrings_eq_of_perm hperm
  exact ⟨_, hgen, by simp [exportLoadRoundTrip, applyDefaultMode, hmode, hmain]⟩

/-- Witness for C9: a two-repository map sharing one action at different
versions exports, after the round trip, the sorted deduplicated
version-stripped union. -/
theorem export_roundtrip_witness :
    ∃ config, GeneratePolicyFromActions { policyMode := "allow" }
        [("org/r1", [{ name := "checkout", uses := "actions/checkout@v3" }]),
         ("org/r2", [{ name := "checkout", uses := "actions/checkout@v4" },
                     { name := "setup", uses := "actions/setup-node@v2" }])]
        = Except.ok config ∧
      (exportLoadRoundTrip config).allowedActions
        = specExportedAllowed false
            [("org/r1", [{ name := "checkout", uses := "actions/checkout@v3" }]),
             ("org/r2", [{ name := "checkout", uses := "actions/checkout@v4" },
                         { name := "setup", uses := "actions/setup-node@v2" }])] :=
  export_roundtrip _ _ rfl

end ActionControl
